import Mathlib

/-!
Verification of the ytpd command-line downloader (src/main.rs, src/setup.rs).

Strings are modelled as `List Char` (the code is ASCII/Unicode text processing
over Rust `String`s).  Each definition is a shallow embedding of the named
place in the Rust source; external effects (process invocation, filesystem)
are passed in as explicit parameters or recorded as explicit outputs.
-/

namespace Ytpd

/-- Rust's `char::is_whitespace` / the regex crate's `\s` class: the Unicode
`White_Space` property (used by `str::trim` and by the `\s` atoms of the
sanitizer regexes in `download_song`, main.rs:148-155). -/
def rustWhitespace (c : Char) : Bool :=
  c.toNat == 0x20 || (0x09 <= c.toNat && c.toNat <= 0x0d) || c.toNat == 0x85 ||
  c.toNat == 0xa0 || c.toNat == 0x1680 ||
  (0x2000 <= c.toNat && c.toNat <= 0x200a) || c.toNat == 0x2028 ||
  c.toNat == 0x2029 || c.toNat == 0x202f || c.toNat == 0x205f ||
  c.toNat == 0x3000

/-! ## Filename sanitizer (main.rs:148-155, `download_song`)

The Rust code applies three regex rewrites to the filename:
1. `Regex::new("^.*? - ").replace(s, "")` - remove the shortest prefix up to
   and including the first " - " (the lazy `.*?` cannot cross a newline);
2. `Regex::new("\\s*\\([^)]*\\)").replace_all(s, "")` - drop every
   parenthetical span together with the whitespace run in front of it;
3. `Regex::new("\\s+\\.").replace_all(s, ".")` - collapse whitespace runs
   before a literal dot.
-/

/-- Does the list start with the three-character separator " - "
(the literal part of the regex "^.*? - ")? -/
def startsSep : List Char → Bool
  | ' ' :: '-' :: ' ' :: _ => true
  | _ => false

/-- Scan for the first occurrence of " - ": the lazy match of "^.*? - ".
`.` does not match a newline, so the scan aborts at the first '\n'.
Returns the remainder after the matched prefix. -/
def dropThroughDash : List Char → Option (List Char)
  | [] => none
  | c :: rest =>
    if startsSep (c :: rest) then some (rest.drop 2)
    else if c = '\n' then none
    else dropThroughDash rest

/-- Rewrite 1 of the sanitizer: `re_artist.replace(s, "")` (main.rs:148-149). -/
def stripArtist (s : List Char) : List Char :=
  match dropThroughDash s with
  | some r => r
  | none => s

/-- Does the list contain " - " anywhere (ignoring the newline restriction)? -/
def containsSep : List Char → Bool
  | [] => false
  | c :: rest => startsSep (c :: rest) || containsSep rest

/-- Consume `[^)]*` then a closing ')': remainder after the first ')' if any. -/
def afterClose : List Char → Option (List Char)
  | [] => none
  | c :: t => if c = ')' then some t else afterClose t

/-- One attempted match of `\s*\([^)]*\)` at the head of the list: greedy
whitespace, an opening '(', non-')' content, the first ')'.  Returns the
remainder after the match. -/
def tryParen (s : List Char) : Option (List Char) :=
  match s.dropWhile rustWhitespace with
  | '(' :: z => afterClose z
  | _ => none

/-- Fuelled scan for `re_prod.replace_all(s, "")` (main.rs:151-152):
leftmost-first removal of every `\s*\([^)]*\)` match.  The fuel is only a
termination device; `removeParens` always supplies enough. -/
def removeParensGo : Nat → List Char → List Char
  | _, [] => []
  | 0, s => s
  | fuel + 1, c :: rest =>
    match tryParen (c :: rest) with
    | some t => removeParensGo fuel t
    | none => c :: removeParensGo fuel rest

/-- Rewrite 2 of the sanitizer: remove all parenthetical spans. -/
def removeParens (s : List Char) : List Char :=
  removeParensGo s.length s

/-- One attempted match of `\s+\.` at the head of the list: at least one
whitespace character, then greedily more, then a literal '.'.  Returns the
remainder after the '.'. -/
def tryWsDot (s : List Char) : Option (List Char) :=
  match s with
  | [] => none
  | c :: rest =>
    if rustWhitespace c then
      match rest.dropWhile rustWhitespace with
      | '.' :: t => some t
      | _ => none
    else none

/-- Fuelled scan for `re_spaces.replace_all(s, ".")` (main.rs:154-155):
every `\s+\.` match is replaced by a single '.'. -/
def collapseWsDotGo : Nat → List Char → List Char
  | _, [] => []
  | 0, s => s
  | fuel + 1, c :: rest =>
    match tryWsDot (c :: rest) with
    | some t => '.' :: collapseWsDotGo fuel t
    | none => c :: collapseWsDotGo fuel rest

/-- Rewrite 3 of the sanitizer: collapse whitespace before a dot. -/
def collapseWsDot (s : List Char) : List Char :=
  collapseWsDotGo s.length s

/-- The filename sanitizer of `download_song` (main.rs:148-155): the three
regex rewrites applied in source order. -/
def sanitize (s : List Char) : List Char :=
  collapseWsDot (removeParens (stripArtist s))

/-- The sanitizer on Lean `String`s. -/
def sanitizeStr (s : String) : String :=
  (sanitize s.data).asString

/-! ## Standard-output parsing of the single-item downloader (main.rs:140-167)

On a successful extractor exit, `download_song` decodes stdout, calls
`str::trim` on the whole decoded string and, when the trimmed text is
non-empty, uses it as the downloaded file's path. -/

/-- Rust's `str::trim`: remove leading and trailing Unicode whitespace. -/
def rustTrim (l : List Char) : List Char :=
  ((l.dropWhile rustWhitespace).reverse.dropWhile rustWhitespace).reverse

/-- The file path `download_song` extracts from the extractor's standard
output (main.rs:141-144): the whole output trimmed, if non-empty. -/
def parsedFilePath (stdout : List Char) : Option (List Char) :=
  if (rustTrim stdout).isEmpty then none else some (rustTrim stdout)

/-- Remove one trailing carriage return (the `\r` of a `\r\n` line ending). -/
def stripCR (l : List Char) : List Char :=
  match l.reverse with
  | '\r' :: t => t.reverse
  | _ => l

/-- Fuelled implementation of Rust's `str::lines`: split at '\n', dropping a
'\r' that immediately precedes a '\n'; a final segment without a terminator
is kept as-is, and a trailing terminator adds no empty line. -/
def rustLinesGo : Nat → List Char → List (List Char)
  | _, [] => []
  | 0, c :: t => [c :: t]
  | fuel + 1, c :: t =>
    match (c :: t).dropWhile (fun x => !(x == '\n')) with
    | '\n' :: rest =>
      stripCR ((c :: t).takeWhile (fun x => !(x == '\n'))) :: rustLinesGo fuel rest
    | _ => [c :: t]

/-- Rust's `str::lines` over a character list. -/
def rustLines (l : List Char) : List (List Char) :=
  rustLinesGo l.length l

/-- Modelled from the spec: "only the last non-empty line is authoritative"
(the output-parsing rule of section 6).  Used as the comparator for the
code's actual stdout parsing. -/
def lastNonEmptyLine (stdout : List Char) : Option (List Char) :=
  ((rustLines stdout).filter (fun ln => !ln.isEmpty)).getLast?

/-! ## Playlist resolver (main.rs:49-85, `get_playlist_urls`)

The external invocation is abstracted by its observable result: whether the
process exited successfully and what it wrote to standard output. -/

/-- The literal prefix of `format!("https://www.youtube.com/watch?v={}", id)`
(main.rs:75). -/
def watchUrlBase : List Char := "https://www.youtube.com/watch?v=".data

/-- The non-empty identifier lines of the flat-playlist listing
(main.rs:72-76: `lines()` filtered by `!line.is_empty()`). -/
def playlistIds (stdout : List Char) : List (List Char) :=
  (rustLines stdout).filter (fun ln => !ln.isEmpty)

/-- `get_playlist_urls` (main.rs:49-85) as a function of the extractor
invocation's exit status and standard output. -/
def getPlaylistUrls (statusSuccess : Bool) (stdout : List Char) :
    Except String (List (List Char)) :=
  if statusSuccess then
    if ((playlistIds stdout).map (fun id => watchUrlBase ++ id)).isEmpty then
      Except.error "No URLs found in playlist"
    else Except.ok ((playlistIds stdout).map (fun id => watchUrlBase ++ id))
  else Except.error "Failed to get playlist URLs"

/-! ## Main dispatch (main.rs:233-245)

After the URL is known, `main` computes `is_playlist = url.contains("playlist?list=")`
and, when the user picked selection 0 ("Single Song") on a playlist URL,
prints an error and returns before any download. -/

/-- Contiguous-substring test, Rust's `str::contains` for a literal needle. -/
def hasSubstring (pat : List Char) : List Char → Bool
  | [] => pat.isEmpty
  | c :: t => pat.isPrefixOf (c :: t) || hasSubstring pat t

/-- The literal needle of `url.contains("playlist?list=")` (main.rs:233). -/
def playlistNeedle : List Char := "playlist?list=".data

/-- What `main` does with the URL once the download type is selected
(main.rs:242-245 and 274-291): selection 0 is "Single Song". -/
inductive MainAction where
  | playlistRejected
  | singleDownload (url : List Char)
  | playlistFlow (url : List Char)
deriving DecidableEq

/-- The dispatch logic of `main` (main.rs:233-245, 274, 289). -/
def mainDispatch (url : List Char) (selection : Nat) : MainAction :=
  let isPlaylist := hasSubstring playlistNeedle url
  if selection == 0 && isPlaylist then MainAction.playlistRejected
  else if selection == 0 then MainAction.singleDownload url
  else MainAction.playlistFlow url

/-! ## Rename step of the single-item downloader (main.rs:144-162)

`PathBuf` equality compares components, so a path with a parent and a file
name is modelled as the pair (parent, file name); `new_path = dir.join(&new_filename)`
keeps the parent and replaces the file name. -/

/-- A path split into its parent directory and file name, as produced by
`path.parent()` / `path.file_name()` in main.rs:145-146. -/
structure SplitPath where
  dir : List Char
  filename : List Char
deriving DecidableEq

/-- The `fs::rename` calls `download_song` performs for a downloaded file
(main.rs:157-162): none when `path == new_path`, otherwise the rename to the
sanitized name followed by the redundant self-rename in the source. -/
def renameCalls (p : SplitPath) : List (SplitPath × SplitPath) :=
  let newPath : SplitPath := ⟨p.dir, sanitize p.filename⟩
  if p = newPath then [] else [(p, newPath), (newPath, newPath)]

/-! ## Dependency bootstrap (setup.rs)

The filesystem and the external processes are abstracted by the results the
code observes from them. -/

/-- The error message of setup.rs:164. -/
def notImplementedMsg : String := "Windows FFmpeg installation not implemented yet"

/-- `install_ffmpeg_windows` (setup.rs:150-165) as a function of the result
of the initial `fs::create_dir_all` call: the `?` propagates a directory
error, and otherwise the function unconditionally returns the
"not implemented" error.  It has no success path. -/
def installFfmpegWindows (createDirResult : Except String Unit) :
    Except String (List Char) :=
  match createDirResult with
  | Except.error e => Except.error e
  | Except.ok _ => Except.error notImplementedMsg

/-- The configuration returned by `check_dependencies` (setup.rs:9-12). -/
structure SetupConfig where
  yt_dlp_path : List Char
  ffmpeg_path : Option (List Char)

/-- The environment `check_dependencies` observes: the platform, the result
of `check_ffmpeg()`, the result of `install_ffmpeg()`, whether the local
yt-dlp binary exists, and the result of `ensure_yt_dlp()`. -/
structure SetupEnv where
  isWindows : Bool
  checkFfmpeg : Except String (List Char)
  installFfmpeg : Except String (List Char)
  ytDlpExists : Bool
  ensureYtDlp : Except String (List Char)

/-- The fixed local path `ytpd/yt-dlp[.exe]` (setup.rs:33-38). -/
def ytDlpLocalPath (isWindows : Bool) : List Char :=
  if isWindows then "ytpd/yt-dlp.exe".data else "ytpd/yt-dlp".data

/-- `check_dependencies` (setup.rs:14-60): resolve ffmpeg (falling back to
installation, propagating an installation error), then resolve yt-dlp
(using the existing binary or `ensure_yt_dlp`), and return both paths. -/
def checkDependencies (env : SetupEnv) : Except String SetupConfig :=
  let ffmpegStep : Except String (Option (List Char)) :=
    match env.checkFfmpeg with
    | Except.ok path => Except.ok (some path)
    | Except.error _ =>
      match env.installFfmpeg with
      | Except.ok path => Except.ok (some path)
      | Except.error e => Except.error e
  match ffmpegStep with
  | Except.error e => Except.error e
  | Except.ok ffmpegPath =>
    let ytDlpStep : Except String (List Char) :=
      if env.ytDlpExists then Except.ok (ytDlpLocalPath env.isWindows)
      else env.ensureYtDlp
    match ytDlpStep with
    | Except.error e => Except.error e
    | Except.ok ytDlpPath => Except.ok ⟨ytDlpPath, ffmpegPath⟩

/-! ## Batch orchestrator (main.rs:294-337)

One task is spawned per playlist URL; `join_all` yields one
`Result<Result<(), E>, JoinError>` per task, and the final loop counts
`Ok(Ok(_))` as a success and everything else as a failure. -/

/-- The outcome `join_all` reports for one spawned task: the outer `Except`
is the join result, the inner one the download result. -/
abbrev TaskOutcome := Except String (Except String Unit)

/-- One step of the tally loop of main.rs:327-332. -/
def tallyStep (acc : Nat × Nat) (r : TaskOutcome) : Nat × Nat :=
  match r with
  | Except.ok (Except.ok _) => (acc.1 + 1, acc.2)
  | _ => (acc.1, acc.2 + 1)

/-- The (success, failure) tally over all joined task results. -/
def tallyResults (results : List TaskOutcome) : Nat × Nat :=
  results.foldl tallyStep (0, 0)

/-- The batch orchestration of main.rs:294-332: one task per URL, all tasks
awaited via `join_all`, each outcome counted once.  `outcome` abstracts the
spawn/download result of a single URL's task. -/
def runBatch (urls : List (List Char)) (outcome : List Char → TaskOutcome) :
    Nat × Nat :=
  tallyResults (urls.map outcome)

/-- The capacity of the admission semaphore, `Semaphore::new(44)`
(main.rs:296). -/
def semaphoreCapacity : Nat := 44

/-- A snapshot of the batch's concurrency state: tasks that have not yet
acquired a permit, free permits, tasks inside `download_song` while holding
a permit, and finished tasks. -/
structure BatchState where
  waiting : Nat
  permits : Nat
  running : Nat
  done : Nat

/-- The initial state for a batch of `n` URLs: every task waits on
`sem.acquire()`, all `semaphoreCapacity` permits are free. -/
def initialBatch (n : Nat) : BatchState :=
  ⟨n, semaphoreCapacity, 0, 0⟩

/-- The two events of a task's life (main.rs:307-318): acquiring a free
permit before calling `download_song`, and finishing the download, which
drops `_permit` and releases it. -/
inductive BatchStep : BatchState → BatchState → Prop
  | acquire (s : BatchState) (hw : s.waiting ≠ 0) (hp : s.permits ≠ 0) :
      BatchStep s ⟨s.waiting - 1, s.permits - 1, s.running + 1, s.done⟩
  | release (s : BatchState) (hr : s.running ≠ 0) :
      BatchStep s ⟨s.waiting, s.permits + 1, s.running - 1, s.done + 1⟩

/-- States reachable during a batch of `n` URLs. -/
inductive BatchReachable (n : Nat) : BatchState → Prop
  | init : BatchReachable n (initialBatch n)
  | step {s t : BatchState} : BatchReachable n s → BatchStep s t → BatchReachable n t

/-! ## Invariant predicates used in the sanitizer proofs -/

/-- Does the list contain a ')' anywhere? -/
def hasClose : List Char → Bool
  | [] => false
  | c :: t => c = ')' || hasClose t

/-- No '(' in the list is followed (anywhere later) by a ')'.  On such lists
the parenthetical rewrite finds no match. -/
def noOpenClose : List Char → Bool
  | [] => true
  | c :: rest => (if c = '(' then !hasClose rest else true) && noOpenClose rest

/-- Does the list start with a literal '.'? -/
def headIsDot : List Char → Bool
  | [] => false
  | c :: _ => c = '.'

/-- No whitespace character in the list is the start of a whitespace run
that ends right before a '.'.  On such lists the whitespace-before-dot
rewrite finds no match. -/
def noWsDot : List Char → Bool
  | [] => true
  | c :: rest => !(rustWhitespace c && headIsDot rest) && noWsDot rest

/-! ## Lemmas about the parenthetical rewrite -/

theorem afterClose_none_hasClose : ∀ {z : List Char}, afterClose z = none → hasClose z = false := by
  intro z
  induction z with
  | nil => intro _; rfl
  | cons c t ih =>
    intro h
    simp only [afterClose] at h
    split at h
    · simp at h
    · next hc => simp [hasClose, hc, ih h]

theorem afterClose_some_hasClose : ∀ {z t : List Char}, afterClose z = some t → hasClose z = true := by
  intro z
  induction z with
  | nil => intro t h; simp [afterClose] at h
  | cons c zt ih =>
    intro t h
    simp only [afterClose] at h
    split at h
    · next hc => simp [hasClose, hc]
    · simp [hasClose, ih h]

theorem afterClose_some_suffix : ∀ {z t : List Char}, afterClose z = some t → t <:+ z := by
  intro z
  induction z with
  | nil => intro t h; simp [afterClose] at h
  | cons c zt ih =>
    intro t h
    simp only [afterClose] at h
    split at h
    · cases h; exact List.suffix_cons _ _
    · exact (ih h).trans (List.suffix_cons _ _)

theorem afterClose_some_length : ∀ {z t : List Char}, afterClose z = some t → t.length < z.length := by
  intro z
  induction z with
  | nil => intro t h; simp [afterClose] at h
  | cons c zt ih =>
    intro t h
    simp only [afterClose] at h
    split at h
    · cases h; simp
    · exact Nat.lt_trans (ih h) (by simp)

theorem hasClose_mono : ∀ {a b : List Char}, a.Sublist b → hasClose a = true → hasClose b = true := by
  intro a b hs
  induction hs with
  | slnil => exact fun h => h
  | cons c _ ih =>
    intro h
    simp only [hasClose, Bool.or_eq_true]
    exact Or.inr (ih h)
  | cons₂ c _ ih =>
    intro h
    simp only [hasClose, Bool.or_eq_true] at h ⊢
    exact h.elim Or.inl (fun h2 => Or.inr (ih h2))

theorem tryParen_some_suffix {s t : List Char} (h : tryParen s = some t) : t <:+ s := by
  unfold tryParen at h
  split at h
  · next z heq =>
    exact ((afterClose_some_suffix h).trans (List.suffix_cons _ _)).trans
      (heq ▸ List.dropWhile_suffix rustWhitespace)
  · simp at h

theorem tryParen_some_length {s t : List Char} (h : tryParen s = some t) :
    t.length + 2 ≤ s.length := by
  unfold tryParen at h
  split at h
  · next z heq =>
    have h1 : t.length < z.length := afterClose_some_length h
    have h2 : ('(' :: z).length ≤ s.length :=
      (heq ▸ List.dropWhile_suffix rustWhitespace (l := s)).length_le
    simp only [List.length_cons] at h2
    omega
  · simp at h

theorem noOpenClose_tail {c : Char} {rest : List Char}
    (h : noOpenClose (c :: rest) = true) : noOpenClose rest = true := by
  simp only [noOpenClose, Bool.and_eq_true] at h
  exact h.2

theorem noOpenClose_open {rest : List Char} (h : noOpenClose ('(' :: rest) = true) :
    hasClose rest = false := by
  simp only [noOpenClose, Bool.and_eq_true, eq_self_iff_true, if_true,
    Bool.not_eq_true'] at h
  exact h.1

theorem noOpenClose_append {a b : List Char} (h : noOpenClose (a ++ b) = true) :
    noOpenClose b = true := by
  induction a with
  | nil => exact h
  | cons c t ih => exact ih (noOpenClose_tail h)

theorem noOpenClose_suffix {a b : List Char} (hb : b <:+ a) (h : noOpenClose a = true) :
    noOpenClose b = true := by
  obtain ⟨pre, rfl⟩ := hb
  exact noOpenClose_append h

theorem noOpenClose_tryParen {v : List Char} (h : noOpenClose v = true) :
    tryParen v = none := by
  cases htp : tryParen v with
  | none => rfl
  | some t =>
    exfalso
    unfold tryParen at htp
    split at htp
    · next z heq =>
      have h1 : noOpenClose ('(' :: z) = true :=
        noOpenClose_suffix (heq ▸ List.dropWhile_suffix rustWhitespace) h
      have h2 := afterClose_some_hasClose htp
      rw [noOpenClose_open h1] at h2
      exact absurd h2 (by simp)
    · simp at htp

theorem removeParensGo_sublist : ∀ (fuel : Nat) (s : List Char),
    (removeParensGo fuel s).Sublist s := by
  intro fuel
  induction fuel with
  | zero => intro s; cases s <;> simp [removeParensGo]
  | succ fuel ih =>
    intro s
    cases s with
    | nil => simp [removeParensGo]
    | cons c rest =>
      cases htp : tryParen (c :: rest) with
      | some t =>
        rw [removeParensGo, htp]
        exact (ih t).trans (tryParen_some_suffix htp).sublist
      | none =>
        rw [removeParensGo, htp]
        exact (ih rest).cons₂ c

theorem removeParensGo_noOpenClose : ∀ (fuel : Nat) (s : List Char), s.length ≤ fuel →
    noOpenClose (removeParensGo fuel s) = true := by
  intro fuel
  induction fuel with
  | zero =>
    intro s hs
    cases s with
    | nil => simp [removeParensGo, noOpenClose]
    | cons c r => simp at hs
  | succ fuel ih =>
    intro s hs
    cases s with
    | nil => simp [removeParensGo, noOpenClose]
    | cons c rest =>
      simp only [List.length_cons] at hs
      cases htp : tryParen (c :: rest) with
      | some t =>
        rw [removeParensGo, htp]
        have hl := tryParen_some_length htp
        simp only [List.length_cons] at hl
        exact ih t (by omega)
      | none =>
        rw [removeParensGo, htp]
        have hrest : noOpenClose (removeParensGo fuel rest) = true := ih rest (by omega)
        by_cases hc : c = '('
        · subst hc
          have hac : afterClose rest = none := htp
          have hcl : hasClose rest = false := afterClose_none_hasClose hac
          have hclx : hasClose (removeParensGo fuel rest) = false := by
            cases hcc : hasClose (removeParensGo fuel rest) with
            | false => rfl
            | true =>
              have := hasClose_mono (removeParensGo_sublist fuel rest) hcc
              rw [hcl] at this
              exact absurd this (by simp)
          simp [noOpenClose, hclx, hrest]
        · simp [noOpenClose, hc, hrest]

theorem removeParensGo_id : ∀ (fuel : Nat) {s : List Char}, noOpenClose s = true →
    removeParensGo fuel s = s := by
  intro fuel
  induction fuel with
  | zero => intro s _; cases s <;> simp [removeParensGo]
  | succ fuel ih =>
    intro s h
    cases s with
    | nil => simp [removeParensGo]
    | cons c rest =>
      rw [removeParensGo, noOpenClose_tryParen h]
      rw [ih (noOpenClose_tail h)]

/-! ## Lemmas about the whitespace-before-dot rewrite -/

theorem noWsDot_cons_eq (c : Char) (rest : List Char) :
    noWsDot (c :: rest) = (!(rustWhitespace c && headIsDot rest) && noWsDot rest) := rfl

theorem tryWsDot_some_parts {s t : List Char} (h : tryWsDot s = some t) :
    ∃ c rest, s = c :: rest ∧ rustWhitespace c = true ∧ ('.' :: t) <:+ rest := by
  unfold tryWsDot at h
  split at h
  · simp at h
  · next c rest =>
    split at h
    · next hc =>
      split at h
      · next t2 heq =>
        cases h
        exact ⟨c, rest, rfl, hc, heq ▸ List.dropWhile_suffix rustWhitespace⟩
      · simp at h
    · simp at h

theorem tryWsDot_some_length {s t : List Char} (h : tryWsDot s = some t) :
    t.length + 2 ≤ s.length := by
  obtain ⟨c, rest, rfl, _, hsfx⟩ := tryWsDot_some_parts h
  have := hsfx.length_le
  simp only [List.length_cons] at this ⊢
  omega

theorem noWsDot_tail {c : Char} {rest : List Char} (h : noWsDot (c :: rest) = true) :
    noWsDot rest = true := by
  simp only [noWsDot, Bool.and_eq_true] at h
  exact h.2

theorem tryWsDot_some_noWsDot : ∀ {s t : List Char}, tryWsDot s = some t →
    noWsDot s = false := by
  intro s
  induction s with
  | nil => intro t h; simp [tryWsDot] at h
  | cons c rest ih =>
    intro t h
    simp only [tryWsDot] at h
    split at h
    · next hc =>
      split at h
      · next t2 heq =>
        cases h
        cases rest with
        | nil => simp at heq
        | cons e r3 =>
          by_cases he : rustWhitespace e = true
          · have htw2 : tryWsDot (e :: r3) = some t := by
              rw [List.dropWhile_cons, if_pos he] at heq
              simp only [tryWsDot, if_pos he, heq]
            rw [noWsDot_cons_eq, ih htw2, Bool.and_false]
          · rw [List.dropWhile_cons, if_neg he] at heq
            injection heq with h1 h2
            subst h1
            simp [noWsDot, headIsDot, hc]
      · simp at h
    · simp at h

theorem collapseWsDotGo_sublist : ∀ (fuel : Nat) (s : List Char),
    (collapseWsDotGo fuel s).Sublist s := by
  intro fuel
  induction fuel with
  | zero => intro s; cases s <;> simp [collapseWsDotGo]
  | succ fuel ih =>
    intro s
    cases s with
    | nil => simp [collapseWsDotGo]
    | cons c rest =>
      cases htw : tryWsDot (c :: rest) with
      | some t =>
        rw [collapseWsDotGo, htw]
        obtain ⟨c2, rest2, heq, -, hsfx⟩ := tryWsDot_some_parts htw
        injection heq with h1 h2
        subst h1; subst h2
        exact ((ih t).cons₂ '.').trans (hsfx.sublist.trans (List.suffix_cons c rest).sublist)
      | none =>
        rw [collapseWsDotGo, htw]
        exact (ih rest).cons₂ c

theorem collapseWsDotGo_noOpenClose : ∀ (fuel : Nat) {s : List Char},
    noOpenClose s = true → noOpenClose (collapseWsDotGo fuel s) = true := by
  intro fuel
  induction fuel with
  | zero => intro s h; cases s <;> simpa [collapseWsDotGo] using h
  | succ fuel ih =>
    intro s h
    cases s with
    | nil => simpa [collapseWsDotGo] using h
    | cons c rest =>
      cases htw : tryWsDot (c :: rest) with
      | some t =>
        rw [collapseWsDotGo, htw]
        obtain ⟨c2, rest2, heq, -, hsfx⟩ := tryWsDot_some_parts htw
        injection heq with h1 h2
        subst h1; subst h2
        have ht : noOpenClose t = true :=
          noOpenClose_tail (noOpenClose_suffix (hsfx.trans (List.suffix_cons c rest)) h)
        simp [noOpenClose, ih ht]
      | none =>
        rw [collapseWsDotGo, htw]
        have hrest : noOpenClose (collapseWsDotGo fuel rest) = true :=
          ih (noOpenClose_tail h)
        by_cases hc : c = '('
        · subst hc
          have hcl : hasClose rest = false := noOpenClose_open h
          have hclx : hasClose (collapseWsDotGo fuel rest) = false := by
            cases hcc : hasClose (collapseWsDotGo fuel rest) with
            | false => rfl
            | true =>
              have := hasClose_mono (collapseWsDotGo_sublist fuel rest) hcc
              rw [hcl] at this
              exact absurd this (by simp)
          simp [noOpenClose, hclx, hrest]
        · simp [noOpenClose, hc, hrest]

theorem collapseWsDotGo_noWsDot : ∀ (fuel : Nat) (s : List Char), s.length ≤ fuel →
    noWsDot (collapseWsDotGo fuel s) = true := by
  intro fuel
  induction fuel with
  | zero =>
    intro s hs
    cases s with
    | nil => simp [collapseWsDotGo, noWsDot]
    | cons c r => simp at hs
  | succ fuel ih =>
    intro s hs
    cases s with
    | nil => simp [collapseWsDotGo, noWsDot]
    | cons c rest =>
      simp only [List.length_cons] at hs
      cases htw : tryWsDot (c :: rest) with
      | some t =>
        rw [collapseWsDotGo, htw]
        have hl := tryWsDot_some_length htw
        simp only [List.length_cons] at hl
        have ht : noWsDot (collapseWsDotGo fuel t) = true := ih t (by omega)
        simp [noWsDot, ht, rustWhitespace]
      | none =>
        rw [collapseWsDotGo, htw]
        have hrest : noWsDot (collapseWsDotGo fuel rest) = true := ih rest (by omega)
        simp only [noWsDot, Bool.and_eq_true]
        refine ⟨?_, hrest⟩
        by_cases hc : rustWhitespace c = true
        · have hdw : headIsDot (rest.dropWhile rustWhitespace) = false := by
            simp only [tryWsDot, if_pos hc] at htw
            cases hd : rest.dropWhile rustWhitespace with
            | nil => rfl
            | cons d r2 =>
              rw [hd] at htw
              by_cases hdot : d = '.'
              · subst hdot; simp at htw
              · simp [headIsDot, hdot]
          have hx : headIsDot (collapseWsDotGo fuel rest) = false := by
            cases rest with
            | nil => cases fuel <;> simp [collapseWsDotGo, headIsDot]
            | cons d r2 =>
              obtain ⟨f2, rfl⟩ : ∃ f2, fuel = f2 + 1 :=
                ⟨fuel - 1, by simp only [List.length_cons] at hs; omega⟩
              by_cases hd : rustWhitespace d = true
              · rw [List.dropWhile_cons, if_pos hd] at hdw
                have htw2 : tryWsDot (d :: r2) = none := by
                  simp only [tryWsDot, if_pos hd]
                  cases hd2 : r2.dropWhile rustWhitespace with
                  | nil => rfl
                  | cons e r3 =>
                    rw [hd2] at hdw
                    by_cases he : e = '.'
                    · subst he; simp [headIsDot] at hdw
                    · split
                      · next heqn =>
                        exact absurd (List.head_eq_of_cons_eq heqn.symm).symm he
                      · rfl
                rw [collapseWsDotGo, htw2]
                have hdne : d ≠ '.' := by
                  intro hh
                  rw [hh] at hd
                  exact absurd hd (by decide)
                simp [headIsDot, hdne]
              · rw [List.dropWhile_cons, if_neg hd] at hdw
                have htw2 : tryWsDot (d :: r2) = none := by
                  simp only [tryWsDot, if_neg hd]
                rw [collapseWsDotGo, htw2]
                simpa [headIsDot] using hdw
          simp [hc, hx]
        · have : rustWhitespace c = false := by
            cases hcc : rustWhitespace c with
            | false => rfl
            | true => exact absurd hcc hc
          simp [this]

theorem collapseWsDotGo_id : ∀ (fuel : Nat) {s : List Char}, noWsDot s = true →
    collapseWsDotGo fuel s = s := by
  intro fuel
  induction fuel with
  | zero => intro s _; cases s <;> simp [collapseWsDotGo]
  | succ fuel ih =>
    intro s h
    cases s with
    | nil => simp [collapseWsDotGo]
    | cons c rest =>
      have htw : tryWsDot (c :: rest) = none := by
        cases h2 : tryWsDot (c :: rest) with
        | none => rfl
        | some t =>
          have := tryWsDot_some_noWsDot h2
          rw [h] at this
          exact absurd this (by simp)
      rw [collapseWsDotGo, htw]
      rw [ih (noWsDot_tail h)]

/-! ## Lemmas about the prefix rewrite -/

theorem dropThroughDash_eq_none {s : List Char} (h : containsSep s = false) :
    dropThroughDash s = none := by
  induction s with
  | nil => rfl
  | cons c rest ih =>
    simp only [containsSep, Bool.or_eq_false_iff] at h
    simp [dropThroughDash, h.1, ih h.2]

theorem stripArtist_eq_self {s : List Char} (h : containsSep s = false) :
    stripArtist s = s := by
  unfold stripArtist
  rw [dropThroughDash_eq_none h]

/-! ## Fixed points of the sanitizer -/

theorem sanitize_noOpenClose (s : List Char) : noOpenClose (sanitize s) = true := by
  unfold sanitize collapseWsDot removeParens
  exact collapseWsDotGo_noOpenClose _
    (removeParensGo_noOpenClose _ _ (Nat.le_refl _))

theorem sanitize_noWsDot (s : List Char) : noWsDot (sanitize s) = true := by
  unfold sanitize collapseWsDot
  exact collapseWsDotGo_noWsDot _ _ (Nat.le_refl _)

theorem sanitize_fixed_of_no_sep {t : List Char} (hsep : containsSep t = false)
    (hoc : noOpenClose t = true) (hwd : noWsDot t = true) : sanitize t = t := by
  unfold sanitize collapseWsDot removeParens
  rw [stripArtist_eq_self hsep]
  rw [removeParensGo_id _ hoc]
  rw [collapseWsDotGo_id _ hwd]

/-! ## Batch tally and concurrency lemmas -/

theorem tallyStep_total (a b : Nat) (r : TaskOutcome) :
    (tallyStep (a, b) r).1 + (tallyStep (a, b) r).2 = a + b + 1 := by
  cases r with
  | error e => rfl
  | ok v =>
    cases v with
    | error e => rfl
    | ok u => simp [tallyStep]; omega

theorem tallyResults_foldl : ∀ (l : List TaskOutcome) (a b : Nat),
    ((l.foldl tallyStep (a, b)).1 + (l.foldl tallyStep (a, b)).2) = a + b + l.length := by
  intro l
  induction l with
  | nil => intro a b; simp
  | cons r t ih =>
    intro a b
    rw [List.foldl_cons]
    have hs : tallyStep (a, b) r = ((tallyStep (a, b) r).1, (tallyStep (a, b) r).2) := rfl
    rw [hs, ih]
    have := tallyStep_total a b r
    simp only [List.length_cons]
    omega

theorem batch_invariant {n : Nat} {s : BatchState} (h : BatchReachable n s) :
    s.running + s.permits = semaphoreCapacity := by
  induction h with
  | init => rfl
  | step hr hs ih =>
    cases hs with
    | acquire hw hp =>
      dsimp only at ih ⊢
      omega
    | release hr2 =>
      dsimp only at ih ⊢
      omega

/-! ## Lemmas about stdout parsing -/

theorem dropWhile_eq_self_head {c : Char} {t : List Char} (p : Char → Bool)
    (h : (c :: t).dropWhile p = c :: t) : p c = false := by
  by_cases hc : p c = true
  · rw [List.dropWhile_cons, if_pos hc] at h
    have hl := congrArg List.length h
    have hle := (List.dropWhile_suffix p (l := t)).length_le
    simp only [List.length_cons] at hl
    omega
  · cases hcc : p c with
    | false => rfl
    | true => exact absurd hcc hc

theorem takeWhile_append_nl : ∀ {l : List Char}, '\n' ∉ l →
    (l ++ ['\n']).takeWhile (fun x => !(x == '\n')) = l ∧
    (l ++ ['\n']).dropWhile (fun x => !(x == '\n')) = ['\n'] := by
  intro l
  induction l with
  | nil => intro _; constructor <;> rfl
  | cons c t ih =>
    intro h
    have hc : c ≠ '\n' := fun hh => h (hh ▸ List.mem_cons_self c t)
    have hmem : '\n' ∉ t := fun hm => h (List.mem_cons_of_mem c hm)
    obtain ⟨ih1, ih2⟩ := ih hmem
    constructor
    · rw [List.cons_append, List.takeWhile_cons]
      simp [hc, ih1]
    · rw [List.cons_append, List.dropWhile_cons]
      simp [hc, ih2]

theorem stripCR_eq_self {l : List Char}
    (h : l.reverse.dropWhile rustWhitespace = l.reverse) : stripCR l = l := by
  unfold stripCR
  split
  · next t heq =>
    exfalso
    rw [heq, List.dropWhile_cons, if_pos (by decide)] at h
    have hl := congrArg List.length h
    have hle := (List.dropWhile_suffix rustWhitespace (l := t)).length_le
    simp only [List.length_cons] at hl
    omega
  · rfl

theorem rustTrim_append_nl {l : List Char} (h0 : l ≠ [])
    (h1 : l.dropWhile rustWhitespace = l)
    (h2 : l.reverse.dropWhile rustWhitespace = l.reverse) :
    rustTrim (l ++ ['\n']) = l := by
  unfold rustTrim
  have hstep1 : (l ++ ['\n']).dropWhile rustWhitespace = l ++ ['\n'] := by
    cases l with
    | nil => exact absurd rfl h0
    | cons c t =>
      have hc := dropWhile_eq_self_head rustWhitespace h1
      rw [List.cons_append, List.dropWhile_cons, hc]
      simp
  rw [hstep1, List.reverse_append]
  simp only [List.reverse_cons, List.reverse_nil, List.nil_append, List.singleton_append]
  rw [List.dropWhile_cons, if_pos (by decide), h2, List.reverse_reverse]

/-! ## Claims -/

/-- C1 (counterexample): the sanitizer is not idempotent.  On "a - b - c" one
application strips only the first "a - " prefix, leaving "b - c", and a
second application strips "b - " as well, so applying the sanitization twice
differs from applying it once. -/
theorem c1_sanitize_not_idempotent :
    sanitize (sanitize ("a - b - c".data)) ≠ sanitize ("a - b - c".data) ∧
    sanitize ("a - b - c".data) = "b - c".data ∧
    sanitize (sanitize ("a - b - c".data)) = "c".data := by
  refine ⟨?_, by decide, by decide⟩
  decide

/-- C1 (amended): the sanitizer is idempotent on every string whose sanitized
form no longer contains the " - " separator: if `sanitize s` has no " - "
substring then `sanitize (sanitize s) = sanitize s`.  (In general a second
application strips one further "prefix - " segment, so unconditional
idempotence fails.) -/
theorem c1_sanitize_idempotent_of_separator_free (s : List Char)
    (h : containsSep (sanitize s) = false) :
    sanitize (sanitize s) = sanitize s :=
  sanitize_fixed_of_no_sep h (sanitize_noOpenClose s) (sanitize_noWsDot s)

/-- C1 (witness): a concrete run of the amended idempotence theorem on
"Artist - Song (Official Video).mp3", whose sanitized form "Song.mp3" is
separator-free. -/
theorem c1_sanitize_idempotent_witness :
    containsSep (sanitize ("Artist - Song (Official Video).mp3".data)) = false ∧
    sanitize (sanitize ("Artist - Song (Official Video).mp3".data)) =
      sanitize ("Artist - Song (Official Video).mp3".data) :=
  ⟨by decide, c1_sanitize_idempotent_of_separator_free _ (by decide)⟩

/-- C4: the sanitizer satisfies the three examples of the specification:
the "Artist - " prefix and the parenthetical annotation are removed, a name
with neither is unchanged, and every parenthetical span is removed. -/
theorem c4_sanitize_examples :
    sanitizeStr "Artist - Song Title (Official Video).mp3" = "Song Title.mp3" ∧
    sanitizeStr "Song Only.mp3" = "Song Only.mp3" ∧
    sanitizeStr "A - B (x) (y).mp3" = "B.mp3" := by
  refine ⟨?_, ?_, ?_⟩ <;> decide

/-- C2: for every batch of N item URLs the orchestrator's tally satisfies
success_count + failure_count = N: `join_all` yields one outcome per spawned
task, every outcome is counted exactly once, and a failed item only adds to
the failure count without removing any other item from the tally. -/
theorem c2_batch_tally (urls : List (List Char)) (outcome : List Char → TaskOutcome) :
    (runBatch urls outcome).1 + (runBatch urls outcome).2 = urls.length := by
  unfold runBatch tallyResults
  rw [tallyResults_foldl]
  simp

/-- C3: the number of simultaneously running download invocations never
exceeds 44: in every state reachable from the start of a batch of n URLs —
where each task must take one of the `Semaphore::new(44)` permits before
calling `download_song` and returns it when the call finishes — the count of
permit-holding running tasks is at most 44. -/
theorem c3_concurrency_ceiling {n : Nat} {s : BatchState} (h : BatchReachable n s) :
    s.running ≤ 44 := by
  have hinv := batch_invariant h
  have : semaphoreCapacity = 44 := rfl
  omega

/-- C3 (witness): after one acquire step in a batch of 5 URLs, one task is
running, which is at most 44. -/
theorem c3_concurrency_ceiling_witness : (⟨4, 43, 1, 0⟩ : BatchState).running ≤ 44 :=
  c3_concurrency_ceiling
    (BatchReachable.step (@BatchReachable.init 5)
      (BatchStep.acquire (initialBatch 5) (by decide) (by decide)))

/-- C7: when the URL contains the "playlist?list=" needle and the user picks
selection 0 ("Single Song"), `main` rejects the URL: the dispatch result is
the rejection branch, and in particular neither the single-song downloader
nor the playlist flow is entered for that URL. -/
theorem c7_playlist_rejected_in_single_mode (url : List Char)
    (h : hasSubstring playlistNeedle url = true) :
    mainDispatch url 0 = MainAction.playlistRejected ∧
    (∀ u, mainDispatch url 0 ≠ MainAction.singleDownload u) ∧
    (∀ u, mainDispatch url 0 ≠ MainAction.playlistFlow u) := by
  have h1 : mainDispatch url 0 = MainAction.playlistRejected := by
    unfold mainDispatch
    simp [h]
  exact ⟨h1, fun u hu => MainAction.noConfusion (h1 ▸ hu),
    fun u hu => MainAction.noConfusion (h1 ▸ hu)⟩

/-- C7 (witness): a concrete playlist URL in single-song mode is rejected. -/
theorem c7_playlist_rejected_witness :
    mainDispatch ("https://www.youtube.com/playlist?list=PL123".data) 0 =
      MainAction.playlistRejected :=
  (c7_playlist_rejected_in_single_mode _ (by decide)).1

/-- C8: a filesystem rename happens only when sanitization changes the file
name: if the sanitized name equals the original one, `download_song` issues
no rename call, and conversely any issued rename implies the names differ. -/
theorem c8_rename_only_when_changed (p : SplitPath) :
    (sanitize p.filename = p.filename → renameCalls p = []) ∧
    (renameCalls p ≠ [] → sanitize p.filename ≠ p.filename) := by
  obtain ⟨d, f⟩ := p
  constructor
  · intro h
    simp only at h
    unfold renameCalls
    simp [h]
  · intro hr heq
    apply hr
    simp only at heq
    unfold renameCalls
    simp [heq]

/-- C8 (witness): an already-clean file name triggers no rename call. -/
theorem c8_rename_only_when_changed_witness :
    renameCalls ⟨"Audio".data, "Song.mp3".data⟩ = [] :=
  (c8_rename_only_when_changed _).1 (by decide)

/-- C9: the Windows encoder-installation path never succeeds: whatever the
surrounding directory-creation step reports, the function returns an error,
and on the nominal path the error is the explicit "not implemented"
message of setup.rs:164. -/
theorem c9_windows_install_always_fails (r : Except String Unit) :
    (∀ p, installFfmpegWindows r ≠ Except.ok p) ∧
    installFfmpegWindows (Except.ok ()) = Except.error notImplementedMsg := by
  constructor
  · intro p hp
    cases r with
    | error e => exact Except.noConfusion hp
    | ok u => exact Except.noConfusion hp
  · rfl

/-- C10: whenever `check_dependencies` returns a configuration, its
`ffmpeg_path` is `Some`: every success path of the ffmpeg-resolution step
stores `Some path`, and a failed installation aborts with an error, so the
`unwrap()` calls on `ffmpeg_path` in `main` cannot panic. -/
theorem c10_ffmpeg_path_always_some {env : SetupEnv} {cfg : SetupConfig}
    (h : checkDependencies env = Except.ok cfg) : cfg.ffmpeg_path.isSome = true := by
  obtain ⟨w, cf, instf, ex, ens⟩ := env
  cases cf <;> cases instf <;> cases ex <;> cases ens <;>
    simp_all [checkDependencies] <;> (subst h; rfl)

/-- C5 (counterexample): the code does not take the last non-empty line of
the extractor's standard output as the file path.  On the two-line output
"a\nb" the code's parsing (trim of the whole output) yields "a\nb", while
the last non-empty line is "b", so the earlier line does affect the path. -/
theorem c5_whole_stdout_not_last_line :
    parsedFilePath ("a\nb".data) = some ("a\nb".data) ∧
    lastNonEmptyLine ("a\nb".data) = some ("b".data) ∧
    ("a\nb".data : List Char) ≠ "b".data := by
  refine ⟨by decide, by decide, by decide⟩

/-- C5 (amended): `download_song` takes the entire standard output, trimmed
of leading and trailing whitespace, as the printed file path; this agrees
with the "last non-empty line" rule when the output is a single printed path
line followed by its newline, but with several non-empty lines the earlier
lines are part of the parsed path as well. -/
theorem c5_parsed_path_is_whole_trimmed_stdout (l : List Char) (h0 : l ≠ [])
    (h1 : l.dropWhile rustWhitespace = l)
    (h2 : l.reverse.dropWhile rustWhitespace = l.reverse)
    (h3 : '\n' ∉ l) :
    parsedFilePath (l ++ ['\n']) = some l ∧
    lastNonEmptyLine (l ++ ['\n']) = some l := by
  constructor
  · unfold parsedFilePath
    rw [rustTrim_append_nl h0 h1 h2]
    cases l with
    | nil => exact absurd rfl h0
    | cons c t => rfl
  · cases l with
    | nil => exact absurd rfl h0
    | cons c t =>
      obtain ⟨tw, dw⟩ := takeWhile_append_nl h3
      have hline : rustLines ((c :: t) ++ ['\n']) = [c :: t] := by
        unfold rustLines
        have e1 : ((c :: t) ++ ['\n']).length = (t.length + 1) + 1 := by simp
        rw [e1, List.cons_append]
        simp only [rustLinesGo]
        have dw2 : (c :: (t ++ ['\n'])).dropWhile (fun x => !(x == '\n')) = ['\n'] := by
          rw [← List.cons_append]; exact dw
        have tw2 : (c :: (t ++ ['\n'])).takeWhile (fun x => !(x == '\n')) = c :: t := by
          rw [← List.cons_append]; exact tw
        rw [dw2, tw2, stripCR_eq_self h2]
        rfl
      unfold lastNonEmptyLine
      rw [hline]
      rfl

/-- C5 (witness): a concrete single-line output "Audio/Song Title.mp3\n" is
parsed to the same path by the code's whole-trimmed-stdout rule and by the
spec's last-non-empty-line rule. -/
theorem c5_parsed_path_witness :
    parsedFilePath (("Audio/Song Title.mp3".data) ++ ['\n']) =
      some ("Audio/Song Title.mp3".data) ∧
    lastNonEmptyLine (("Audio/Song Title.mp3".data) ++ ['\n']) =
      some ("Audio/Song Title.mp3".data) :=
  c5_parsed_path_is_whole_trimmed_stdout _ (by decide) (by decide) (by decide) (by decide)

/-- C6: the playlist resolver never returns an empty success: a successful
listing with zero identifier lines yields the "No URLs found in playlist"
error, and a returned list is non-empty and maps the identifier lines, in
order and skipping empty lines, to canonical watch URLs. -/
theorem c6_playlist_resolver (b : Bool) (s : List Char) :
    getPlaylistUrls b s ≠ Except.ok [] ∧
    (b = true → playlistIds s = [] →
      getPlaylistUrls b s = Except.error "No URLs found in playlist") ∧
    (∀ l, getPlaylistUrls b s = Except.ok l →
      l ≠ [] ∧
      ∀ i : Nat, l[i]? = Option.map (fun id => watchUrlBase ++ id) (playlistIds s)[i]?) := by
  cases b with
  | false =>
    exact ⟨fun h => Except.noConfusion h, fun hb _ => Bool.noConfusion hb,
      fun l h => Except.noConfusion h⟩
  | true =>
    have key : getPlaylistUrls true s =
        if ((playlistIds s).map (fun id => watchUrlBase ++ id)).isEmpty then
          Except.error "No URLs found in playlist"
        else Except.ok ((playlistIds s).map (fun id => watchUrlBase ++ id)) := rfl
    rw [key]
    cases hids : playlistIds s with
    | nil =>
      exact ⟨fun h => Except.noConfusion h, fun _ _ => rfl, fun l h => Except.noConfusion h⟩
    | cons x xs =>
      refine ⟨?_, fun _ hnil => List.noConfusion hnil, fun l h => ?_⟩
      · intro h
        injection h with h2
        exact List.noConfusion h2
      · injection h with h2
        subst h2
        constructor
        · simp
        · intro i
          rw [List.getElem?_map]

/-- C6 (witness): an empty listing yields the "No URLs found in playlist"
error, and a non-empty listing is not an empty success. -/
theorem c6_playlist_resolver_witness :
    getPlaylistUrls true ("".data) = Except.error "No URLs found in playlist" ∧
    getPlaylistUrls true ("abc".data) ≠ Except.ok [] :=
  ⟨(c6_playlist_resolver true ("".data)).2.1 rfl (by decide),
   (c6_playlist_resolver true ("abc".data)).1⟩

/-- C10 (witness): a concrete environment in which ffmpeg is found on the
path and the local yt-dlp binary exists yields a configuration whose
`ffmpeg_path` is `Some`. -/
theorem c10_ffmpeg_path_always_some_witness :
    (SetupConfig.mk (ytDlpLocalPath false) (some ("/usr/bin/ffmpeg".data))).ffmpeg_path.isSome
      = true :=
  @c10_ffmpeg_path_always_some
    ⟨false, Except.ok ("/usr/bin/ffmpeg".data), Except.error "e", true, Except.error "e"⟩
    ⟨ytDlpLocalPath false, some ("/usr/bin/ffmpeg".data)⟩ rfl

end Ytpd
